import Mathlib

/-!
Verification development for the st2 repository slice consisting of
`st2common/st2common/util/mongoescape.py` and
`st2client/st2client/commands/resource.py`.

Part A embeds the key escaping/unescaping transform of `mongoescape.py`.
Part B embeds the generic resource command layer of `resource.py`.
-/

namespace St2

/-! ## Part A: mongoescape.py

A decoded document is a tree of mappings, sequences and scalars (the shape
json decoding produces; documents are tree-shaped, not aliased graphs). -/

inductive Doc where
  | null : Doc
  | bool (b : Bool) : Doc
  | num (n : Int) : Doc
  | str (s : String) : Doc
  | seq (items : List Doc) : Doc
  | map (entries : List (String × Doc)) : Doc

/-- Source: `UNESCAPED = ['.', '$']` (both are single-character strings,
so they are embedded as characters). -/
def UNESCAPED : List Char := ['.', '$']

/-- Source: `ESCAPED = [u'．', u'＄']`. -/
def ESCAPED : List Char := ['．', '＄']

/-- Source: `ESCAPE_TRANSLATION = dict(zip(UNESCAPED, ESCAPED))`.
Iteration order over this dict is the insertion order of `zip`. -/
def ESCAPE_TRANSLATION : List (Char × Char) := UNESCAPED.zip ESCAPED

/-- Source: `UNESCAPE_TRANSLATION = dict(zip(ESCAPED, UNESCAPED))`. -/
def UNESCAPE_TRANSLATION : List (Char × Char) := ESCAPED.zip UNESCAPED

/-- Python `s.replace(old, new)` replaces every occurrence of the pattern;
for a single-character pattern this is exactly a character-wise map. -/
def strReplaceChar (s : String) (old new : Char) : String :=
  ⟨s.data.map fun c => if c = old then new else c⟩

/-- Source (lines 36-38): `for t_k, t_v in six.iteritems(translation):
newkey = newkey.replace(t_k, t_v)`. -/
def translateKey (translation : List (Char × Char)) (k : String) : String :=
  translation.foldl (fun s p => strReplaceChar s p.1 p.2) k

/-- Python `work_field[newkey] = value` on a dict: an existing key keeps its
position and gets the new value; a fresh key is appended (insertion order). -/
def dictSet (l : List (String × Doc)) (k : String) (v : Doc) : List (String × Doc) :=
  if l.any (fun p => p.1 = k) then l.map (fun p => if p.1 = k then (k, v) else p)
  else l ++ [(k, v)]

/-- Python `del work_field[oldkey]` (on a dict with unique keys the filter
removes exactly the entry for that key). -/
def dictDel (l : List (String × Doc)) (k : String) : List (String × Doc) :=
  l.filter (fun p => p.1 ≠ k)

/-- The per-dict effect of the work-queue loop of `_translate_chars`
(lines 30-43): the queue holds a snapshot of the dict's items, and for each
snapshot item `(oldkey, value)` in order, if the translated key differs the
value is stored under the new key and the old key is deleted.  `items` is
the remaining snapshot, `field` the current state of the dict. -/
def rewriteKeys (tr : String → String) : List (String × Doc) → List (String × Doc) → List (String × Doc)
  | [], field => field
  | (k, v) :: rest, field =>
      let nk := tr k
      rewriteKeys tr rest (if nk ≠ k then dictDel (dictSet field nk v) k else field)

/- Source: `_translate_chars(field, translation)` (lines 25-44).

The Python code runs one breadth-first work queue over all nested dicts:
each dict's items are snapshotted exactly once (the top-level dict at entry,
a nested dict when its parent item is popped and
`isinstance(value, dict)` holds — sequence values are never pushed), before
any of that dict's keys are rewritten, and the queue is FIFO, so one dict's
snapshot items are processed in snapshot order.  Operations on distinct dict
objects touch disjoint state (the document is a tree), and the key-rewriting
steps never inspect the values they move, so the queue run is equivalent to
this recursion: translate every value first (`translateEntries`), then fold
the key rewrites of one dict over its own snapshot (`rewriteKeys`). -/
mutual
def translate_chars (translation : List (Char × Char)) : Doc → Doc
  | .map entries =>
      .map (rewriteKeys (translateKey translation) (translateEntries translation entries)
                        (translateEntries translation entries))
  | .seq items => .seq items
  | .null => .null
  | .bool b => .bool b
  | .num n => .num n
  | .str s => .str s

def translateEntries (translation : List (Char × Char)) :
    List (String × Doc) → List (String × Doc)
  | [] => []
  | (k, v) :: rest => (k, translate_chars translation v) :: translateEntries translation rest
end

/-- Source: `escape_chars(field)` (lines 47-48). -/
def escape_chars (field : Doc) : Doc := translate_chars ESCAPE_TRANSLATION field

/-- Source: `unescape_chars(field)` (lines 51-52). -/
def unescape_chars (field : Doc) : Doc := translate_chars UNESCAPE_TRANSLATION field

/- Views and predicates used to state the document claims. -/

def keysOf (l : List (String × Doc)) : List String := l.map Prod.fst

def Doc.isMapB : Doc → Bool
  | .map _ => true
  | _ => false

def Doc.entriesOf : Doc → List (String × Doc)
  | .map entries => entries
  | _ => []

/-- Lookup in a Python dict rendered as an ordered association list. -/
def lookupA : List (String × Doc) → String → Option Doc
  | [], _ => none
  | (k, v) :: rest, key => if k = key then some v else lookupA rest key

/-- Follow a path of mapping keys through a document (the keys reachable
through mapping nesting are exactly the valid paths of `getPath`). -/
def getPath : Doc → List String → Option Doc
  | d, [] => some d
  | .map entries, key :: rest =>
      match lookupA entries key with
      | some v => getPath v rest
      | none => none
  | _, _ :: _ => none

/-- Key translation performed by `escape_chars`. -/
def escKey : String → String := translateKey ESCAPE_TRANSLATION

/-- Key translation performed by `unescape_chars`. -/
def unescKey : String → String := translateKey UNESCAPE_TRANSLATION

/-- Character-level effect of `escKey`. -/
def escChar (c : Char) : Char := if c = '.' then '．' else if c = '$' then '＄' else c

/-- Character-level effect of `unescKey`. -/
def unescChar (c : Char) : Char := if c = '．' then '.' else if c = '＄' then '$' else c

/-- A character that is not one of the two fullwidth substitute characters. -/
def cleanChar (c : Char) : Bool := c ≠ '．' && c ≠ '＄'

/-- A key free of the fullwidth substitute characters. -/
def cleanKey (k : String) : Bool := k.data.all cleanChar

mutual
/-- Mapping keys reachable through mapping nesting are free of the fullwidth
substitutes and duplicate-free within each mapping (a Python dict always has
duplicate-free keys; sequence contents are unconstrained since the transform
never descends into them). -/
def cleanNodupDoc : Doc → Bool
  | .map entries => decide ((keysOf entries).Nodup) && cleanNodupEntries entries
  | _ => true

def cleanNodupEntries : List (String × Doc) → Bool
  | [] => true
  | (k, v) :: rest => cleanKey k && cleanNodupDoc v && cleanNodupEntries rest
end

/-! ### Character-level lemmas about the two key translations -/

theorem ESCAPE_TRANSLATION_eq : ESCAPE_TRANSLATION = [('.', '．'), ('$', '＄')] := rfl

theorem UNESCAPE_TRANSLATION_eq : UNESCAPE_TRANSLATION = [('．', '.'), ('＄', '$')] := rfl

theorem escKey_eq_map (k : String) : escKey k = ⟨k.data.map escChar⟩ := by
  simp only [escKey, translateKey, ESCAPE_TRANSLATION_eq, List.foldl_cons, List.foldl_nil,
    strReplaceChar, List.map_map]
  congr 1
  apply List.map_congr_left
  intro c _
  simp only [Function.comp_apply, escChar]
  by_cases h1 : c = '.'
  · subst h1; decide
  · by_cases h2 : c = '$'
    · subst h2; decide
    · simp [h1, h2]

theorem unescKey_eq_map (k : String) : unescKey k = ⟨k.data.map unescChar⟩ := by
  simp only [unescKey, translateKey, UNESCAPE_TRANSLATION_eq, List.foldl_cons, List.foldl_nil,
    strReplaceChar, List.map_map]
  congr 1
  apply List.map_congr_left
  intro c _
  simp only [Function.comp_apply, unescChar]
  by_cases h1 : c = '．'
  · subst h1; decide
  · by_cases h2 : c = '＄'
    · subst h2; decide
    · simp [h1, h2]

theorem unescChar_escChar (c : Char) (h : cleanChar c = true) : unescChar (escChar c) = c := by
  simp only [cleanChar, Bool.and_eq_true, decide_eq_true_eq] at h
  simp only [escChar, unescChar]
  by_cases h1 : c = '.'
  · subst h1; decide
  · by_cases h2 : c = '$'
    · subst h2; decide
    · simp [h1, h2, h.1, h.2]

theorem escChar_escChar (c : Char) : escChar (escChar c) = escChar c := by
  simp only [escChar]
  by_cases h1 : c = '.'
  · subst h1; decide
  · by_cases h2 : c = '$'
    · subst h2; decide
    · simp [h1, h2]

theorem unescChar_unescChar (c : Char) : unescChar (unescChar c) = unescChar c := by
  simp only [unescChar]
  by_cases h1 : c = '．'
  · subst h1; decide
  · by_cases h2 : c = '＄'
    · subst h2; decide
    · simp [h1, h2]

theorem cleanChar_of_escChar_eq (c : Char) (h : cleanChar (escChar c) = true) :
    escChar c = c := by
  by_cases h1 : c = '.'
  · subst h1; simp [escChar] at h; revert h; decide
  · by_cases h2 : c = '$'
    · subst h2; simp [escChar] at h; revert h; decide
    · simp [escChar, h1, h2]

theorem escChar_ne_dot_dollar (c : Char) : escChar c ≠ '.' ∧ escChar c ≠ '$' := by
  simp only [escChar]
  by_cases h1 : c = '.'
  · subst h1; decide
  · by_cases h2 : c = '$'
    · subst h2; decide
    · simp only [if_neg h1, if_neg h2]; exact ⟨h1, h2⟩

/-- A key free of the two reserved source characters. -/
def noReserved (k : String) : Bool := k.data.all (fun c => c ≠ '.' && c ≠ '$')

/-! ### String-level lemmas about the two key translations -/

theorem noReserved_escKey (k : String) : noReserved (escKey k) = true := by
  simp only [noReserved, escKey_eq_map, List.all_eq_true, List.mem_map]
  rintro c ⟨c0, _, rfl⟩
  have h := escChar_ne_dot_dollar c0
  simp [h.1, h.2]

theorem escKey_fixed_of_noReserved (k : String) (h : noReserved k = true) : escKey k = k := by
  simp only [noReserved, List.all_eq_true, Bool.and_eq_true, decide_eq_true_eq] at h
  rw [escKey_eq_map]
  have hm : k.data.map escChar = k.data := by
    conv_rhs => rw [← List.map_id k.data]
    apply List.map_congr_left
    intro c hc
    have hc2 := h c hc
    simp [escChar, hc2.1, hc2.2]
  rw [hm]

/-- If escaping leaves a key with only clean characters, it did not change it. -/
theorem escKey_fixed_of_clean (k : String) (h : cleanKey (escKey k) = true) : escKey k = k := by
  rw [escKey_eq_map] at h ⊢
  simp only [cleanKey, List.all_eq_true, List.mem_map] at h
  have hm : k.data.map escChar = k.data := by
    conv_rhs => rw [← List.map_id k.data]
    apply List.map_congr_left
    intro c hc
    exact cleanChar_of_escChar_eq c (h (escChar c) ⟨c, hc, rfl⟩)
  rw [hm]

theorem unescKey_escKey (k : String) (h : cleanKey k = true) : unescKey (escKey k) = k := by
  simp only [cleanKey, List.all_eq_true] at h
  rw [escKey_eq_map, unescKey_eq_map]
  show (⟨(k.data.map escChar).map unescChar⟩ : String) = k
  rw [List.map_map]
  have hm : k.data.map (unescChar ∘ escChar) = k.data := by
    conv_rhs => rw [← List.map_id k.data]
    apply List.map_congr_left
    intro c hc
    exact unescChar_escChar c (h c hc)
  rw [hm]

theorem escKey_escKey (k : String) : escKey (escKey k) = escKey k := by
  rw [escKey_eq_map, escKey_eq_map]
  show (⟨(k.data.map escChar).map escChar⟩ : String) = _
  rw [List.map_map]
  congr 1
  apply List.map_congr_left
  intro c _
  exact escChar_escChar c

theorem unescKey_unescKey (k : String) : unescKey (unescKey k) = unescKey k := by
  rw [unescKey_eq_map, unescKey_eq_map]
  show (⟨(k.data.map unescChar).map unescChar⟩ : String) = _
  rw [List.map_map]
  congr 1
  apply List.map_congr_left
  intro c _
  exact unescChar_unescChar c

/-- A changed key contains a reserved character. -/
theorem not_noReserved_of_escKey_ne (k : String) (h : escKey k ≠ k) :
    noReserved k = false := by
  by_contra hfalse
  have hr : noReserved k = true := by
    cases hres : noReserved k
    · exact absurd hres hfalse
    · rfl
  exact h (escKey_fixed_of_noReserved k hr)

/-- Escaping is injective on clean keys. -/
theorem escKey_inj_on_clean (k1 k2 : String) (h1 : cleanKey k1 = true)
    (h2 : cleanKey k2 = true) (heq : escKey k1 = escKey k2) : k1 = k2 := by
  have := congrArg unescKey heq
  rwa [unescKey_escKey k1 h1, unescKey_escKey k2 h2] at this

/-! ### The work-queue rewrite under collision-free conditions -/

/-- The keys a translation changes. -/
def changedKeys (tr : String → String) (ks : List String) : List String :=
  ks.filter (fun k => tr k ≠ k)

/-- No collision can arise at any point of the queue run: keys are unique,
the rewritten keys are pairwise distinct, and no rewritten key equals a key
already present. -/
def SafeRewrite (tr : String → String) (ks : List String) : Prop :=
  ks.Nodup ∧ ((changedKeys tr ks).map tr).Nodup ∧
    ∀ k ∈ changedKeys tr ks, tr k ∉ ks

instance (tr : String → String) (ks : List String) : Decidable (SafeRewrite tr ks) := by
  unfold SafeRewrite
  infer_instance

theorem keysOf_cons (k : String) (v : Doc) (l : List (String × Doc)) :
    keysOf ((k, v) :: l) = k :: keysOf l := rfl

theorem mem_keysOf {l : List (String × Doc)} {k : String} :
    k ∈ keysOf l ↔ ∃ v, (k, v) ∈ l := by
  simp only [keysOf, List.mem_map]
  constructor
  · rintro ⟨p, hp, rfl⟩; exact ⟨p.2, hp⟩
  · rintro ⟨v, hv⟩; exact ⟨(k, v), hv, rfl⟩

theorem dictSet_of_not_mem (field : List (String × Doc)) (k : String) (v : Doc)
    (h : k ∉ keysOf field) : dictSet field k v = field ++ [(k, v)] := by
  unfold dictSet
  rw [if_neg]
  simp only [List.any_eq_true, decide_eq_true_eq, not_exists]
  rintro p ⟨hp1, hp2⟩
  refine h (mem_keysOf.mpr ⟨p.2, ?_⟩)
  rw [← hp2, Prod.mk.eta]
  exact hp1

theorem dictDel_append_single (field : List (String × Doc)) (nk k : String) (v : Doc)
    (h : nk ≠ k) :
    dictDel (field ++ [(nk, v)]) k = field.filter (fun p => p.1 ≠ k) ++ [(nk, v)] := by
  unfold dictDel
  rw [List.filter_append]
  simp [h]

theorem keysOf_filter_subset (p : String × Doc → Bool) (field : List (String × Doc)) :
    ∀ k ∈ keysOf (field.filter p), k ∈ keysOf field := by
  intro k hk
  obtain ⟨v, hv⟩ := mem_keysOf.mp hk
  exact mem_keysOf.mpr ⟨v, (List.mem_filter.mp hv).1⟩

theorem changedKeys_cons_of_ne (tr : String → String) (k : String) (ks : List String)
    (h : tr k ≠ k) : changedKeys tr (k :: ks) = k :: changedKeys tr ks := by
  simp [changedKeys, List.filter_cons, h]

theorem changedKeys_cons_of_eq (tr : String → String) (k : String) (ks : List String)
    (h : tr k = k) : changedKeys tr (k :: ks) = changedKeys tr ks := by
  simp [changedKeys, List.filter_cons, h]

theorem changedKeys_subset (tr : String → String) (ks : List String) :
    ∀ k ∈ changedKeys tr ks, k ∈ ks := by
  intro k hk
  exact (List.mem_filter.mp hk).1

/-- Characterization of one dict's queue run when no collision can arise:
unchanged entries stay in place, changed entries are re-appended in snapshot
order under their rewritten keys. -/
theorem rewriteKeys_char (tr : String → String) :
    ∀ (items field : List (String × Doc)),
    (keysOf items).Nodup →
    ((changedKeys tr (keysOf items)).map tr).Nodup →
    (∀ k ∈ changedKeys tr (keysOf items), tr k ∉ keysOf field) →
    (∀ k ∈ changedKeys tr (keysOf items), tr k ∉ keysOf items) →
    rewriteKeys tr items field =
      field.filter (fun p => !decide (p.1 ∈ changedKeys tr (keysOf items))) ++
        (items.filter (fun p => tr p.1 ≠ p.1)).map (fun p => (tr p.1, p.2)) := by
  intro items
  induction items with
  | nil =>
    intro field _ _ _ _
    simp [rewriteKeys, changedKeys, keysOf]
  | cons hd rest ih =>
    obtain ⟨k, v⟩ := hd
    intro field hnodup hmapnodup hfield hitems
    rw [keysOf_cons] at hnodup hmapnodup hfield hitems
    by_cases h : tr k = k
    · rw [changedKeys_cons_of_eq tr k _ h] at hmapnodup hfield hitems
      have hstep : rewriteKeys tr ((k, v) :: rest) field = rewriteKeys tr rest field := by
        simp [rewriteKeys, h]
      rw [hstep, ih field (List.Nodup.of_cons hnodup) hmapnodup hfield
        (fun k2 hk2 => fun hmem => hitems k2 hk2 (List.mem_cons_of_mem k hmem))]
      have hfiltereq : ((k, v) :: rest).filter (fun p => tr p.1 ≠ p.1) =
          rest.filter (fun p => tr p.1 ≠ p.1) := by
        simp [List.filter_cons, h]
      rw [hfiltereq, keysOf_cons, changedKeys_cons_of_eq tr k _ h]
    · rw [changedKeys_cons_of_ne tr k _ h] at hmapnodup hfield hitems
      have hk_changed_head : tr k ∉ keysOf field :=
        hfield k (List.mem_cons_self k _)
      have hstep : rewriteKeys tr ((k, v) :: rest) field =
          rewriteKeys tr rest (field.filter (fun p => p.1 ≠ k) ++ [(tr k, v)]) := by
        simp only [rewriteKeys, if_pos h]
        rw [dictSet_of_not_mem field (tr k) v hk_changed_head,
          dictDel_append_single field (tr k) k v h]
      rw [hstep]
      have hon_rest : (keysOf rest).Nodup := List.Nodup.of_cons hnodup
      have hmap_rest : ((changedKeys tr (keysOf rest)).map tr).Nodup := by
        rw [List.map_cons] at hmapnodup
        exact List.Nodup.of_cons hmapnodup
      have htrk_notin : tr k ∉ (changedKeys tr (keysOf rest)).map tr := by
        rw [List.map_cons] at hmapnodup
        exact (List.nodup_cons.mp hmapnodup).1
      have hfield_rest : ∀ k2 ∈ changedKeys tr (keysOf rest),
          tr k2 ∉ keysOf (field.filter (fun p => p.1 ≠ k) ++ [(tr k, v)]) := by
        intro k2 hk2 hmem
        rw [keysOf, List.map_append] at hmem
        rcases List.mem_append.mp hmem with hmem1 | hmem2
        · exact hfield k2 (List.mem_cons_of_mem k hk2)
            (keysOf_filter_subset _ field (tr k2) hmem1)
        · have heq : tr k2 = tr k := by simpa using hmem2
          exact htrk_notin (heq ▸ List.mem_map_of_mem tr hk2)
      have hitems_rest : ∀ k2 ∈ changedKeys tr (keysOf rest), tr k2 ∉ keysOf rest := by
        intro k2 hk2 hmem
        exact hitems k2 (List.mem_cons_of_mem k hk2) (List.mem_cons_of_mem k hmem)
      rw [ih _ hon_rest hmap_rest hfield_rest hitems_rest]
      have htrk_not_changed_rest : tr k ∉ changedKeys tr (keysOf rest) := by
        intro hmem
        exact hitems k (List.mem_cons_self k _)
          (List.mem_cons_of_mem k (changedKeys_subset tr _ (tr k) hmem))
      rw [List.filter_append]
      have hsingle : ([((tr k, v) : String × Doc)].filter
          (fun p => !decide (p.1 ∈ changedKeys tr (keysOf rest)))) = [(tr k, v)] := by
        simp [htrk_not_changed_rest]
      rw [hsingle]
      have hff : (field.filter (fun p => p.1 ≠ k)).filter
          (fun p => !decide (p.1 ∈ changedKeys tr (keysOf rest))) =
          field.filter (fun p => !decide (p.1 ∈ changedKeys tr (keysOf ((k, v) :: rest)))) := by
        rw [List.filter_filter]
        apply List.filter_congr
        intro p _
        rw [keysOf_cons, changedKeys_cons_of_ne tr k _ h]
        by_cases hpk : p.1 = k
        · simp [hpk]
        · simp [hpk]
      rw [hff]
      have hfilter_cons : ((k, v) :: rest).filter (fun p => tr p.1 ≠ p.1) =
          (k, v) :: rest.filter (fun p => tr p.1 ≠ p.1) := by
        simp [List.filter_cons, h]
      rw [hfilter_cons, List.map_cons, List.append_assoc, List.singleton_append]

/-- Under collision-free conditions the queue run renames every entry 1:1:
the result is a permutation of the input with each key rewritten and each
value carried along. -/
theorem rewriteKeys_perm (tr : String → String) (l : List (String × Doc))
    (h : SafeRewrite tr (keysOf l)) :
    (rewriteKeys tr l l).Perm (l.map (fun p => (tr p.1, p.2))) := by
  obtain ⟨hnodup, hmapnodup, hnoclash⟩ := h
  rw [rewriteKeys_char tr l l hnodup hmapnodup hnoclash hnoclash]
  have hunchanged : l.filter (fun p => !decide (p.1 ∈ changedKeys tr (keysOf l))) =
      l.filter (fun p => !decide (tr p.1 ≠ p.1)) := by
    apply List.filter_congr
    intro p hp
    by_cases hc : tr p.1 = p.1
    · have hnm : p.1 ∉ changedKeys tr (keysOf l) := by
        intro hmem
        have hne := (List.mem_filter.mp hmem).2
        simp [hc] at hne
      simp [hnm, hc]
    · have : p.1 ∈ changedKeys tr (keysOf l) := by
        apply List.mem_filter.mpr
        exact ⟨List.mem_map_of_mem Prod.fst hp, by simpa using hc⟩
      simp [this, hc]
  rw [hunchanged]
  have hfix : l.filter (fun p => !decide (tr p.1 ≠ p.1)) =
      (l.filter (fun p => !decide (tr p.1 ≠ p.1))).map (fun p => (tr p.1, p.2)) := by
    conv_lhs => rw [← List.map_id (l.filter (fun p => !decide (tr p.1 ≠ p.1)))]
    apply List.map_congr_left
    intro p hp
    have := (List.mem_filter.mp hp).2
    have hc : tr p.1 = p.1 := by simpa using this
    simp [id, hc]
  rw [hfix, ← List.map_append]
  apply List.Perm.map
  exact List.perm_append_comm.trans
    (List.filter_append_perm (fun p : String × Doc => decide (tr p.1 ≠ p.1)) l)

/-- `SafeRewrite` only depends on the key list up to permutation. -/
theorem SafeRewrite_perm (tr : String → String) {ks1 ks2 : List String}
    (hp : ks1.Perm ks2) (h : SafeRewrite tr ks1) : SafeRewrite tr ks2 := by
  obtain ⟨h1, h2, h3⟩ := h
  have hc : (changedKeys tr ks1).Perm (changedKeys tr ks2) := hp.filter _
  refine ⟨hp.nodup h1, ((hc.map tr).nodup h2), ?_⟩
  intro k hk
  rw [← hp.mem_iff]
  exact h3 k (hc.symm.mem_iff.mp hk)

/-! ### Association-list lookup lemmas -/

theorem lookupA_eq_some_iff {l : List (String × Doc)} (hn : (keysOf l).Nodup)
    {key : String} {v : Doc} : lookupA l key = some v ↔ (key, v) ∈ l := by
  induction l with
  | nil => simp [lookupA]
  | cons hd rest ih =>
    obtain ⟨k0, v0⟩ := hd
    rw [keysOf_cons] at hn
    show (if k0 = key then some v0 else lookupA rest key) = some v ↔ _
    by_cases hk : k0 = key
    · rw [if_pos hk]
      subst hk
      simp only [Option.some.injEq, List.mem_cons, Prod.mk.injEq]
      constructor
      · rintro rfl
        exact Or.inl (by simp)
      · rintro (⟨-, rfl⟩ | hmem)
        · rfl
        · exact absurd (List.mem_map_of_mem Prod.fst hmem) (List.nodup_cons.mp hn).1
    · rw [if_neg hk, ih (List.Nodup.of_cons hn)]
      simp only [List.mem_cons, Prod.mk.injEq]
      constructor
      · exact Or.inr
      · rintro (⟨h1, -⟩ | hmem)
        · exact absurd h1.symm hk
        · exact hmem

theorem lookupA_eq_none_iff {l : List (String × Doc)} {key : String} :
    lookupA l key = none ↔ key ∉ keysOf l := by
  induction l with
  | nil => simp [lookupA, keysOf]
  | cons hd rest ih =>
    obtain ⟨k0, v0⟩ := hd
    rw [keysOf_cons]
    show (if k0 = key then some v0 else lookupA rest key) = none ↔ _
    by_cases hk : k0 = key
    · rw [if_pos hk]
      subst hk
      simp
    · rw [if_neg hk, ih]
      simp only [List.mem_cons, not_or]
      constructor
      · intro hnone
        exact ⟨fun heq => hk heq.symm, hnone⟩
      · exact And.right

/-- On duplicate-free dicts, lookup only depends on the entry set. -/
theorem lookupA_perm {l1 l2 : List (String × Doc)} (hn : (keysOf l1).Nodup)
    (hp : l1.Perm l2) (key : String) : lookupA l1 key = lookupA l2 key := by
  have hn2 : (keysOf l2).Nodup := ((hp.map Prod.fst).nodup hn : _)
  cases hres : lookupA l1 key with
  | some v =>
    rw [lookupA_eq_some_iff hn] at hres
    exact ((lookupA_eq_some_iff hn2).mpr (hp.mem_iff.mp hres)).symm
  | none =>
    rw [lookupA_eq_none_iff] at hres
    symm
    rw [lookupA_eq_none_iff]
    intro hmem
    exact hres (((hp.map Prod.fst).mem_iff).mpr hmem)

theorem lookupA_map_val (l : List (String × Doc)) (f : Doc → Doc) (key : String) :
    lookupA (l.map (fun p => (p.1, f p.2))) key = (lookupA l key).map f := by
  induction l with
  | nil => simp [lookupA]
  | cons hd rest ih =>
    obtain ⟨k0, v0⟩ := hd
    by_cases hk : k0 = key
    · subst hk
      simp [lookupA]
    · simp [lookupA, if_neg hk, ih]

/-! ### A strong induction principle for documents -/

theorem Doc.strongInd (P : Doc → Prop) (hnull : P .null) (hbool : ∀ b, P (.bool b))
    (hnum : ∀ n, P (.num n)) (hstr : ∀ s, P (.str s)) (hseq : ∀ items, P (.seq items))
    (hmap : ∀ entries, (∀ p ∈ entries, P p.2) → P (.map entries)) : ∀ d, P d := by
  have key : ∀ n (d : Doc), sizeOf d ≤ n → P d := by
    intro n
    induction n with
    | zero =>
      intro d hd
      exfalso
      cases d <;> simp at hd
    | succ n ih =>
      intro d hd
      cases d with
      | null => exact hnull
      | bool b => exact hbool b
      | num m => exact hnum m
      | str s => exact hstr s
      | seq items => exact hseq items
      | map entries =>
        apply hmap
        intro p hp
        apply ih
        have h1 : sizeOf p < sizeOf entries := List.sizeOf_lt_of_mem hp
        have h2 : sizeOf (Doc.map entries) = 1 + sizeOf entries := by
          simp [Doc.map.sizeOf_spec]
        obtain ⟨k, v⟩ := p
        have h3 : sizeOf ((k, v) : String × Doc) = 1 + sizeOf k + sizeOf v := by
          simp
        show sizeOf v ≤ n
        omega

  intro d
  exact key (sizeOf d) d (Nat.le_refl _)

/-- `translateEntries` is a value-wise map. -/
theorem translateEntries_eq_map (translation : List (Char × Char))
    (l : List (String × Doc)) :
    translateEntries translation l =
      l.map (fun p => (p.1, translate_chars translation p.2)) := by
  induction l with
  | nil => rfl
  | cons hd rest ih =>
    obtain ⟨k, v⟩ := hd
    simp [translateEntries, ih]

theorem keysOf_map_val (f : Doc → Doc) (l : List (String × Doc)) :
    keysOf (l.map (fun p => (p.1, f p.2))) = keysOf l := by
  induction l with
  | nil => rfl
  | cons hd rest ih => simp only [List.map_cons, keysOf_cons, keysOf] at ih ⊢; rw [ih]

theorem keysOf_map_key_val (f : String → String) (g : Doc → Doc) (l : List (String × Doc)) :
    keysOf (l.map (fun p => (f p.1, g p.2))) = (keysOf l).map f := by
  induction l with
  | nil => rfl
  | cons hd rest ih => simp only [List.map_cons, keysOf_cons, keysOf] at ih ⊢; rw [ih]

theorem keysOf_translateEntries (translation : List (Char × Char))
    (l : List (String × Doc)) :
    keysOf (translateEntries translation l) = keysOf l := by
  rw [translateEntries_eq_map, keysOf_map_val]

theorem translate_chars_map_eq (translation : List (Char × Char))
    (entries : List (String × Doc)) :
    translate_chars translation (.map entries) =
      .map (rewriteKeys (translateKey translation) (translateEntries translation entries)
        (translateEntries translation entries)) := by
  simp [translate_chars]

theorem translate_chars_nonmap (translation : List (Char × Char)) (d : Doc)
    (h : d.isMapB = false) : translate_chars translation d = d := by
  cases d <;> first
    | rfl
    | simp [Doc.isMapB] at h

/-- Under collision-free conditions, one translation pass over a mapping is a
1:1 rename of its entries (up to entry order). -/
theorem translate_map_perm (translation : List (Char × Char))
    (entries : List (String × Doc))
    (h : SafeRewrite (translateKey translation) (keysOf entries)) :
    (translate_chars translation (.map entries)).entriesOf.Perm
      (entries.map (fun p =>
        (translateKey translation p.1, translate_chars translation p.2))) := by
  rw [translate_chars_map_eq]
  show (rewriteKeys _ _ _).Perm _
  have hsafe : SafeRewrite (translateKey translation)
      (keysOf (translateEntries translation entries)) := by
    rwa [keysOf_translateEntries]
  have hperm := rewriteKeys_perm (translateKey translation)
    (translateEntries translation entries) hsafe
  rw [translateEntries_eq_map, List.map_map] at hperm
  have hcomp : ((fun p : String × Doc => (translateKey translation p.1, p.2)) ∘
      (fun p : String × Doc => (p.1, translate_chars translation p.2))) =
      (fun p : String × Doc =>
        (translateKey translation p.1, translate_chars translation p.2)) := rfl
  rw [hcomp] at hperm
  rw [translateEntries_eq_map]
  exact hperm

/-- Clean, duplicate-free keys make the escape pass collision-free. -/
theorem safe_escape (ks : List String) (hclean : ∀ k ∈ ks, cleanKey k = true)
    (hnodup : ks.Nodup) : SafeRewrite escKey ks := by
  refine ⟨hnodup, ?_, ?_⟩
  · apply List.Nodup.map_on
    · intro k1 hk1 k2 hk2 heq
      exact escKey_inj_on_clean k1 k2
        (hclean k1 (changedKeys_subset _ _ k1 hk1))
        (hclean k2 (changedKeys_subset _ _ k2 hk2)) heq
    · exact hnodup.filter _
  · intro k hk hmem
    have hchanged : escKey k ≠ k := by
      have := (List.mem_filter.mp hk).2
      simpa using this
    have hcleanesc : cleanKey (escKey k) = true := hclean (escKey k) hmem
    exact hchanged (escKey_fixed_of_clean k hcleanesc)

/-- The unescape pass applied to escaped clean keys is collision-free. -/
theorem safe_unescape (ks : List String) (hclean : ∀ k ∈ ks, cleanKey k = true)
    (hnodup : ks.Nodup) : SafeRewrite unescKey (ks.map escKey) := by
  have hinj : ∀ k1 ∈ ks, ∀ k2 ∈ ks, escKey k1 = escKey k2 → k1 = k2 := by
    intro k1 hk1 k2 hk2 heq
    exact escKey_inj_on_clean k1 k2 (hclean k1 hk1) (hclean k2 hk2) heq
  have hmapnodup : (ks.map escKey).Nodup := List.Nodup.map_on hinj hnodup
  refine ⟨hmapnodup, ?_, ?_⟩
  · have hsub : (changedKeys unescKey (ks.map escKey)).map unescKey |>.Sublist
        ((ks.map escKey).map unescKey) :=
      List.Sublist.map unescKey (List.filter_sublist _)
    have hids : (ks.map escKey).map unescKey = ks := by
      rw [List.map_map]
      conv_rhs => rw [← List.map_id ks]
      apply List.map_congr_left
      intro k hk
      exact unescKey_escKey k (hclean k hk)
    rw [hids] at hsub
    exact hnodup.sublist hsub
  · intro k1 hk1 hmem
    have hk1mem : k1 ∈ ks.map escKey := changedKeys_subset _ _ k1 hk1
    obtain ⟨k0, hk0, rfl⟩ := List.mem_map.mp hk1mem
    have hchanged : unescKey (escKey k0) ≠ escKey k0 := by
      have := (List.mem_filter.mp hk1).2
      simpa using this
    rw [unescKey_escKey k0 (hclean k0 hk0)] at hchanged hmem
    have hreserved : noReserved k0 = false :=
      not_noReserved_of_escKey_ne k0 (fun heq => hchanged heq.symm)
    obtain ⟨k2, _, hk2eq⟩ := List.mem_map.mp hmem
    rw [← hk2eq, noReserved_escKey k2] at hreserved
    exact Bool.false_ne_true hreserved.symm

/-! ### The composed escape/unescape round trip on a clean mapping -/

theorem cleanNodupEntries_mem {l : List (String × Doc)} (h : cleanNodupEntries l = true) :
    ∀ p ∈ l, cleanKey p.1 = true ∧ cleanNodupDoc p.2 = true := by
  induction l with
  | nil => intro p hp; cases hp
  | cons hd rest ih =>
    obtain ⟨k, v⟩ := hd
    rw [cleanNodupEntries] at h
    simp only [Bool.and_eq_true] at h
    intro p hp
    rcases List.mem_cons.mp hp with rfl | hmem
    · exact ⟨h.1.1, h.1.2⟩
    · exact ih h.2 p hmem

theorem cleanNodupDoc_map_unpack {entries : List (String × Doc)}
    (h : cleanNodupDoc (.map entries) = true) :
    (keysOf entries).Nodup ∧ cleanNodupEntries entries = true := by
  rw [cleanNodupDoc] at h
  simp only [Bool.and_eq_true, decide_eq_true_eq] at h
  exact h

/-- Escaping then unescaping a mapping with clean, duplicate-free keys
recovers exactly the original entries up to entry order, with each value
replaced by its own round trip. -/
theorem roundtrip_map_perm (entries : List (String × Doc))
    (hclean : ∀ k ∈ keysOf entries, cleanKey k = true)
    (hnodup : (keysOf entries).Nodup) :
    (unescape_chars (escape_chars (.map entries))).entriesOf.Perm
      (entries.map (fun p => (p.1, unescape_chars (escape_chars p.2)))) := by
  have hsafe_esc : SafeRewrite escKey (keysOf entries) := safe_escape _ hclean hnodup
  have hperm1 : (escape_chars (.map entries)).entriesOf.Perm
      (entries.map (fun p => (escKey p.1, escape_chars p.2))) :=
    translate_map_perm ESCAPE_TRANSLATION entries hsafe_esc
  set E := (escape_chars (.map entries)).entriesOf with hE
  have hmapE : escape_chars (.map entries) = .map E := by
    rw [hE]
    show escape_chars (.map entries) = _
    rw [escape_chars, translate_chars_map_eq]
    rfl
  have hkeysE : (keysOf E).Perm ((keysOf entries).map escKey) := by
    have h := hperm1.map Prod.fst
    rw [← keysOf_map_key_val escKey escape_chars entries]
    exact h
  have hsafe_un : SafeRewrite unescKey (keysOf E) := by
    apply SafeRewrite_perm unescKey hkeysE.symm
    exact safe_unescape _ hclean hnodup
  have hperm2 : (unescape_chars (.map E)).entriesOf.Perm
      (E.map (fun p => (unescKey p.1, unescape_chars p.2))) :=
    translate_map_perm UNESCAPE_TRANSLATION E hsafe_un
  have hperm3 : (E.map (fun p => (unescKey p.1, unescape_chars p.2))).Perm
      ((entries.map (fun p => (escKey p.1, escape_chars p.2))).map
        (fun p => (unescKey p.1, unescape_chars p.2))) :=
    hperm1.map _
  rw [List.map_map] at hperm3
  have hfinal : (entries.map ((fun p : String × Doc =>
      (unescKey p.1, unescape_chars p.2)) ∘
      (fun p : String × Doc => (escKey p.1, escape_chars p.2)))) =
      entries.map (fun p => (p.1, unescape_chars (escape_chars p.2))) := by
    apply List.map_congr_left
    intro p hp
    simp only [Function.comp_apply]
    rw [unescKey_escKey p.1 (hclean p.1 (List.mem_map_of_mem Prod.fst hp))]
  rw [hfinal] at hperm3
  rw [hmapE]
  exact hperm2.trans hperm3

/-- Round trip of escape then unescape compared with the original document,
path by path: the same mapping paths are valid, and every non-mapping value
sits unchanged under the same path. -/
theorem roundtrip_getPath :
    ∀ d : Doc, cleanNodupDoc d = true → ∀ path : List String,
    ((getPath (unescape_chars (escape_chars d)) path).map Doc.isMapB =
      (getPath d path).map Doc.isMapB) ∧
    (∀ v, getPath d path = some v → v.isMapB = false →
      getPath (unescape_chars (escape_chars d)) path = some v) := by
  apply Doc.strongInd (fun d => cleanNodupDoc d = true → ∀ path : List String,
    ((getPath (unescape_chars (escape_chars d)) path).map Doc.isMapB =
      (getPath d path).map Doc.isMapB) ∧
    (∀ v, getPath d path = some v → v.isMapB = false →
      getPath (unescape_chars (escape_chars d)) path = some v))
  · exact fun _ _ => ⟨rfl, fun _ hv _ => hv⟩
  · exact fun _ _ _ => ⟨rfl, fun _ hv _ => hv⟩
  · exact fun _ _ _ => ⟨rfl, fun _ hv _ => hv⟩
  · exact fun _ _ _ => ⟨rfl, fun _ hv _ => hv⟩
  · exact fun _ _ _ => ⟨rfl, fun _ hv _ => hv⟩
  · intro entries ih hwf path
    obtain ⟨hnodup, hents⟩ := cleanNodupDoc_map_unpack hwf
    have hmem := cleanNodupEntries_mem hents
    have hcleankeys : ∀ k ∈ keysOf entries, cleanKey k = true := by
      intro k hk
      obtain ⟨v, hv⟩ := mem_keysOf.mp hk
      exact (hmem (k, v) hv).1
    have hperm := roundtrip_map_perm entries hcleankeys hnodup
    have hmapRT : unescape_chars (escape_chars (.map entries)) =
        .map ((unescape_chars (escape_chars (.map entries))).entriesOf) := by
      rw [escape_chars, translate_chars_map_eq, unescape_chars, translate_chars_map_eq]
      rfl
    set RT := (unescape_chars (escape_chars (.map entries))).entriesOf with hRT
    have hkeysRT : (keysOf RT).Nodup := by
      have hkp : (keysOf RT).Perm (keysOf entries) := by
        have h := hperm.map Prod.fst
        rw [← keysOf_map_val (fun x => unescape_chars (escape_chars x)) entries]
        exact h
      exact hkp.symm.nodup hnodup
    cases path with
    | nil =>
      constructor
      · rw [hmapRT]
        rfl
      · intro v hv hfalse
        have hv2 : Doc.map entries = v := by
          simpa [getPath] using hv
        rw [← hv2] at hfalse
        simp [Doc.isMapB] at hfalse
    | cons key rest =>
      have hlk : lookupA RT key =
          (lookupA entries key).map (fun x => unescape_chars (escape_chars x)) := by
        rw [lookupA_perm hkeysRT hperm key]
        exact lookupA_map_val entries (fun x => unescape_chars (escape_chars x)) key
      cases hcase : lookupA entries key with
      | none =>
        have hnone : lookupA RT key = none := by rw [hlk, hcase]; rfl
        constructor
        · rw [hmapRT]
          simp [getPath, hnone, hcase]
        · intro v hv hfalse
          simp [getPath, hcase] at hv
      | some v0 =>
        have hsome : lookupA RT key = some (unescape_chars (escape_chars v0)) := by
          rw [hlk, hcase]; rfl
        have hv0mem : (key, v0) ∈ entries := (lookupA_eq_some_iff hnodup).mp hcase
        have hv0clean : cleanNodupDoc v0 = true := (hmem (key, v0) hv0mem).2
        have hih := ih (key, v0) hv0mem hv0clean rest
        have h1 : getPath (.map RT) (key :: rest) =
            getPath (unescape_chars (escape_chars v0)) rest := by
          simp [getPath, hsome]
        have h2 : getPath (.map entries) (key :: rest) = getPath v0 rest := by
          simp [getPath, hcase]
        constructor
        · rw [hmapRT, h1, h2]
          exact hih.1
        · intro v hv hfalse
          rw [h2] at hv
          rw [hmapRT, h1]
          exact hih.2 v hv hfalse

/-! ### Fixed points of a translation pass (for idempotence) -/

mutual
/-- All mapping keys reachable through mapping nesting are fixed by `tr`. -/
def fixedDoc (tr : String → String) : Doc → Bool
  | .map entries => fixedEntries tr entries
  | _ => true

def fixedEntries (tr : String → String) : List (String × Doc) → Bool
  | [] => true
  | (k, v) :: rest => (tr k == k) && fixedDoc tr v && fixedEntries tr rest
end

theorem fixedEntries_mem {tr : String → String} {l : List (String × Doc)}
    (h : fixedEntries tr l = true) :
    ∀ p ∈ l, tr p.1 = p.1 ∧ fixedDoc tr p.2 = true := by
  induction l with
  | nil => intro p hp; cases hp
  | cons hd rest ih =>
    obtain ⟨k, v⟩ := hd
    rw [fixedEntries] at h
    simp only [Bool.and_eq_true, beq_iff_eq] at h
    intro p hp
    rcases List.mem_cons.mp hp with rfl | hmem
    · exact ⟨h.1.1, h.1.2⟩
    · exact ih h.2 p hmem

theorem fixedEntries_of_mem {tr : String → String} {l : List (String × Doc)}
    (h : ∀ p ∈ l, tr p.1 = p.1 ∧ fixedDoc tr p.2 = true) :
    fixedEntries tr l = true := by
  induction l with
  | nil => rfl
  | cons hd rest ih =>
    obtain ⟨k, v⟩ := hd
    rw [fixedEntries]
    have hhd := h (k, v) (List.mem_cons_self _ _)
    simp only [Bool.and_eq_true, beq_iff_eq]
    exact ⟨⟨hhd.1, hhd.2⟩, ih (fun p hp => h p (List.mem_cons_of_mem _ hp))⟩

/-- A queue run over items whose keys are all fixed leaves the dict alone. -/
theorem rewriteKeys_id_of_fixed (tr : String → String) :
    ∀ (items field : List (String × Doc)),
    (∀ k ∈ keysOf items, tr k = k) → rewriteKeys tr items field = field := by
  intro items
  induction items with
  | nil => intro field _; rfl
  | cons hd rest ih =>
    obtain ⟨k, v⟩ := hd
    intro field h
    have hk : tr k = k := h k (by rw [keysOf_cons]; exact List.mem_cons_self _ _)
    show rewriteKeys tr rest (if tr k ≠ k then _ else field) = field
    rw [if_neg (by simpa using hk)]
    exact ih field (fun k2 hk2 => h k2 (by rw [keysOf_cons]; exact List.mem_cons_of_mem _ hk2))

theorem keysOf_dictSet (field : List (String × Doc)) (nk : String) (v : Doc) :
    ∀ k ∈ keysOf (dictSet field nk v), k ∈ keysOf field ∨ k = nk := by
  intro k hk
  unfold dictSet at hk
  by_cases hany : field.any (fun p => p.1 = nk)
  · rw [if_pos hany] at hk
    obtain ⟨w, hw⟩ := mem_keysOf.mp hk
    obtain ⟨p, hp, hpe⟩ := List.mem_map.mp hw
    by_cases hpk : p.1 = nk
    · rw [if_pos hpk] at hpe
      exact Or.inr (congrArg Prod.fst hpe).symm
    · rw [if_neg hpk] at hpe
      have hpk2 : p.1 = k := by simpa using congrArg Prod.fst hpe
      exact Or.inl (hpk2 ▸ List.mem_map_of_mem Prod.fst hp)
  · rw [if_neg hany] at hk
    rw [keysOf, List.map_append] at hk
    rcases List.mem_append.mp hk with h1 | h2
    · exact Or.inl h1
    · simp only [List.map_cons, List.map_nil, List.mem_singleton] at h2
      exact Or.inr h2

theorem keysOf_dictDel (l : List (String × Doc)) (k0 : String) :
    ∀ k ∈ keysOf (dictDel l k0), k ∈ keysOf l ∧ k ≠ k0 := by
  intro k hk
  obtain ⟨v, hv⟩ := mem_keysOf.mp hk
  have hv2 := List.mem_filter.mp hv
  refine ⟨List.mem_map_of_mem Prod.fst hv2.1, ?_⟩
  simpa using hv2.2

theorem values_dictDel (l : List (String × Doc)) (k0 : String) :
    ∀ w ∈ (dictDel l k0).map Prod.snd, w ∈ l.map Prod.snd := by
  intro w hw
  obtain ⟨p, hp, hpe⟩ := List.mem_map.mp hw
  exact hpe ▸ List.mem_map_of_mem Prod.snd (List.mem_filter.mp hp).1

theorem values_dictSet (l : List (String × Doc)) (nk : String) (v : Doc) :
    ∀ w ∈ (dictSet l nk v).map Prod.snd, w ∈ l.map Prod.snd ∨ w = v := by
  intro w hw
  unfold dictSet at hw
  by_cases hany : l.any (fun p => p.1 = nk)
  · rw [if_pos hany] at hw
    obtain ⟨p, hp, hpe⟩ := List.mem_map.mp (by
      rw [List.map_map] at hw
      exact hw)
    by_cases hpk : p.1 = nk
    · simp only [Function.comp_apply, if_pos hpk] at hpe
      exact Or.inr hpe.symm
    · simp only [Function.comp_apply, if_neg hpk] at hpe
      exact Or.inl (hpe ▸ List.mem_map_of_mem Prod.snd hp)
  · rw [if_neg hany, List.map_append] at hw
    rcases List.mem_append.mp hw with h1 | h2
    · exact Or.inl h1
    · simp only [List.map_cons, List.map_nil, List.mem_singleton] at h2
      exact Or.inr h2

/-- When `tr` is idempotent on keys, every key that survives a queue run is a
fixed point of `tr` (assuming every not-yet-fixed key of the dict is still to
be processed, as holds at the start of a run). -/
theorem rewriteKeys_keys_fixed (tr : String → String) (hidem : ∀ s, tr (tr s) = tr s) :
    ∀ (items field : List (String × Doc)),
    (∀ k ∈ keysOf field, k ∈ keysOf items ∨ tr k = k) →
    ∀ k ∈ keysOf (rewriteKeys tr items field), tr k = k := by
  intro items
  induction items with
  | nil =>
    intro field h k hk
    rcases h k hk with hmem | hfix
    · cases hmem
    · exact hfix
  | cons hd rest ih =>
    obtain ⟨k0, v0⟩ := hd
    intro field h
    by_cases hk0 : tr k0 = k0
    · show ∀ k ∈ keysOf (rewriteKeys tr rest (if tr k0 ≠ k0 then _ else field)), tr k = k
      rw [if_neg (by simpa using hk0)]
      apply ih field
      intro k hk
      rcases h k hk with hmem | hfix
      · rw [keysOf_cons] at hmem
        rcases List.mem_cons.mp hmem with rfl | hmem2
        · exact Or.inr hk0
        · exact Or.inl hmem2
      · exact Or.inr hfix
    · show ∀ k ∈ keysOf (rewriteKeys tr rest (if tr k0 ≠ k0 then
          dictDel (dictSet field (tr k0) v0) k0 else field)), tr k = k
      rw [if_pos (by simpa using hk0)]
      apply ih
      intro k hk
      obtain ⟨hkset, hkne⟩ := keysOf_dictDel _ k0 k hk
      rcases keysOf_dictSet field (tr k0) v0 k hkset with hfield | heq
      · rcases h k hfield with hmem | hfix
        · rw [keysOf_cons] at hmem
          rcases List.mem_cons.mp hmem with rfl | hmem2
          · exact absurd rfl hkne
          · exact Or.inl hmem2
        · exact Or.inr hfix
      · subst heq
        exact Or.inr (hidem k0)

/-- Every value in a queue-run result originates from the dict or the
snapshot. -/
theorem rewriteKeys_values_origin (tr : String → String) :
    ∀ (items field : List (String × Doc)), ∀ p ∈ rewriteKeys tr items field,
    p.2 ∈ field.map Prod.snd ∨ p.2 ∈ items.map Prod.snd := by
  intro items
  induction items with
  | nil =>
    intro field p hp
    exact Or.inl (List.mem_map_of_mem Prod.snd hp)
  | cons hd rest ih =>
    obtain ⟨k0, v0⟩ := hd
    intro field p hp
    by_cases hk0 : tr k0 = k0
    · rw [show rewriteKeys tr ((k0, v0) :: rest) field = rewriteKeys tr rest field by
        simp [rewriteKeys, hk0]] at hp
      rcases ih field p hp with h1 | h2
      · exact Or.inl h1
      · exact Or.inr (by simp only [List.map_cons]; exact List.mem_cons_of_mem _ h2)
    · rw [show rewriteKeys tr ((k0, v0) :: rest) field =
          rewriteKeys tr rest (dictDel (dictSet field (tr k0) v0) k0) by
        simp [rewriteKeys, hk0]] at hp
      rcases ih _ p hp with h1 | h2
      · have h3 := values_dictDel _ k0 p.2 h1
        rcases values_dictSet field (tr k0) v0 p.2 h3 with h4 | h5
        · exact Or.inl h4
        · exact Or.inr (by simp only [List.map_cons]; exact h5 ▸ List.mem_cons_self _ _)
      · exact Or.inr (by simp only [List.map_cons]; exact List.mem_cons_of_mem _ h2)

/-- A document all of whose reachable keys are fixed is left unchanged. -/
theorem translate_chars_fixed (translation : List (Char × Char)) :
    ∀ d : Doc, fixedDoc (translateKey translation) d = true →
    translate_chars translation d = d := by
  apply Doc.strongInd (fun d => fixedDoc (translateKey translation) d = true →
    translate_chars translation d = d)
  · exact fun _ => rfl
  · exact fun _ _ => rfl
  · exact fun _ _ => rfl
  · exact fun _ _ => rfl
  · exact fun _ _ => rfl
  · intro entries ih hfix
    rw [fixedDoc] at hfix
    have hmem := fixedEntries_mem hfix
    have hentries : translateEntries translation entries = entries := by
      rw [translateEntries_eq_map]
      conv_rhs => rw [← List.map_id entries]
      apply List.map_congr_left
      intro p hp
      rw [ih p hp (hmem p hp).2]
      rfl
    have hkeys : ∀ k ∈ keysOf entries, translateKey translation k = k := by
      intro k hk
      obtain ⟨v, hv⟩ := mem_keysOf.mp hk
      exact (hmem (k, v) hv).1
    rw [translate_chars_map_eq, hentries,
      rewriteKeys_id_of_fixed (translateKey translation) entries entries hkeys]

/-- When the key translation is idempotent, one pass produces a document all
of whose reachable keys are fixed. -/
theorem translate_chars_output_fixed (translation : List (Char × Char))
    (hidem : ∀ s, translateKey translation (translateKey translation s) =
      translateKey translation s) :
    ∀ d : Doc,
    fixedDoc (translateKey translation) (translate_chars translation d) = true := by
  apply Doc.strongInd (fun d => fixedDoc (translateKey translation)
    (translate_chars translation d) = true)
  · rfl
  · intro _; rfl
  · intro _; rfl
  · intro _; rfl
  · intro _; rfl
  · intro entries ih
    rw [translate_chars_map_eq, fixedDoc]
    apply fixedEntries_of_mem
    intro p hp
    constructor
    · exact rewriteKeys_keys_fixed (translateKey translation) hidem _ _
        (fun k hk => Or.inl hk) p.1 (List.mem_map_of_mem Prod.fst hp)
    · rcases rewriteKeys_values_origin (translateKey translation) _ _ p hp with h | h
      all_goals
        rw [translateEntries_eq_map, List.map_map] at h
      all_goals
        obtain ⟨q, hq, hqe⟩ := List.mem_map.mp h
      all_goals
        have hqe2 : translate_chars translation q.2 = p.2 := hqe
      all_goals
        rw [← hqe2]
      all_goals
        exact ih q hq

/-! ### Claims C1, C6, C9, C10 about mongoescape -/

/-- C1 (amended): for every document D whose mapping-reachable keys contain
no fullwidth substitute character (and, as in any Python dict, are
duplicate-free within each mapping), `unescape_chars (escape_chars D)`
reconstructs the identical key set and value assignments as D, restricted to
keys reachable through mapping nesting: exactly the same mapping paths are
valid, and every non-mapping value — sequences included, whose nested
mapping keys are therefore unaffected by both passes — is found unchanged
under its original path.  Without the no-substitute-characters amendment the
claim fails, see the counterexample. -/
theorem C1_roundtrip_restores_assignments (d : Doc) (hwf : cleanNodupDoc d = true)
    (path : List String) :
    ((getPath (unescape_chars (escape_chars d)) path).map Doc.isMapB =
      (getPath d path).map Doc.isMapB) ∧
    (∀ v, getPath d path = some v → v.isMapB = false →
      getPath (unescape_chars (escape_chars d)) path = some v) :=
  roundtrip_getPath d hwf path

/-- C1 counterexample: the document whose single mapping key is the
fullwidth full stop U+FF0E is escaped to itself, but unescaping then turns
the key into a plain dot: the round trip does not reconstruct the key set. -/
theorem C1_counterexample_fullwidth_key :
    getPath (Doc.map [("．", Doc.num 1)]) ["．"] = some (Doc.num 1) ∧
    getPath (unescape_chars (escape_chars (Doc.map [("．", Doc.num 1)]))) ["．"] = none ∧
    unescape_chars (escape_chars (Doc.map [("．", Doc.num 1)])) =
      Doc.map [(".", Doc.num 1)] :=
  ⟨rfl, rfl, rfl⟩

/-- Witness: the amended C1 theorem applied to a concrete clean document,
recovering a scalar leaf under its original dotted key. -/
theorem C1_witness :
    cleanNodupDoc (Doc.map [("a.b", Doc.num 1),
      ("c", Doc.seq [Doc.map [("x.y", Doc.null)]])]) = true ∧
    getPath (unescape_chars (escape_chars (Doc.map [("a.b", Doc.num 1),
      ("c", Doc.seq [Doc.map [("x.y", Doc.null)]])]))) ["a.b"] = some (Doc.num 1) :=
  ⟨rfl, (C1_roundtrip_restores_assignments
    (Doc.map [("a.b", Doc.num 1), ("c", Doc.seq [Doc.map [("x.y", Doc.null)]])])
    rfl ["a.b"]).2 (Doc.num 1) rfl rfl⟩

/-- C6: `escape_chars` and `unescape_chars` never descend into sequence
elements: both transforms return any sequence unchanged (so mappings with
reserved-character keys sitting in sequence elements keep those keys), and
every value appearing in a transformed mapping is the transform of one of
the input values — hence a sequence value passes through both passes
entirely untouched. -/
theorem C6_sequences_not_descended :
    (∀ items : List Doc, escape_chars (.seq items) = .seq items ∧
      unescape_chars (.seq items) = .seq items) ∧
    (∀ translation : List (Char × Char), ∀ entries : List (String × Doc),
      ∀ p ∈ (translate_chars translation (.map entries)).entriesOf,
      ∃ q ∈ entries, p.2 = translate_chars translation q.2) := by
  constructor
  · exact fun _ => ⟨rfl, rfl⟩
  · intro translation entries p hp
    rw [translate_chars_map_eq] at hp
    have hp2 : p ∈ rewriteKeys (translateKey translation)
        (translateEntries translation entries)
        (translateEntries translation entries) := hp
    rcases rewriteKeys_values_origin (translateKey translation) _ _ p hp2 with h | h
    all_goals
      rw [translateEntries_eq_map, List.map_map] at h
    all_goals
      obtain ⟨q, hq, hqe⟩ := List.mem_map.mp h
    all_goals
      have hqe2 : translate_chars translation q.2 = p.2 := hqe
    all_goals
      exact ⟨q, hq, hqe2.symm⟩

/-- Witness: C6 applied to a mapping holding a sequence whose element is a
mapping with the reserved-character key x.y; the sequence value comes out of
the escape pass untouched. -/
theorem C6_witness :
    (escape_chars (.seq [Doc.map [("x.y", Doc.null)]]) =
      .seq [Doc.map [("x.y", Doc.null)]]) ∧
    (∃ q ∈ [("a", Doc.seq [Doc.map [("x.y", Doc.null)]])],
      (("a", Doc.seq [Doc.map [("x.y", Doc.null)]]) : String × Doc).2 =
        translate_chars ESCAPE_TRANSLATION q.2) := by
  constructor
  · exact (C6_sequences_not_descended.1 [Doc.map [("x.y", Doc.null)]]).1
  · apply C6_sequences_not_descended.2 ESCAPE_TRANSLATION
      [("a", Doc.seq [Doc.map [("x.y", Doc.null)]])]
    rw [show (translate_chars ESCAPE_TRANSLATION
      (.map [("a", Doc.seq [Doc.map [("x.y", Doc.null)]])])).entriesOf =
      [("a", Doc.seq [Doc.map [("x.y", Doc.null)]])] from rfl]
    exact List.mem_singleton.mpr rfl

/-- C9 (amended): provided no two keys of the mapping collide under the
rewrite (`SafeRewrite`), escaping never changes the set of value
assignments, only key spellings: the result has exactly one entry per input
entry, carrying the same (recursively escaped) value under the rewritten
key, and a non-mapping value is never altered.  Without the no-collision
amendment the claim fails, see the counterexample. -/
theorem C9_escape_renames_entries_one_to_one (entries : List (String × Doc))
    (h : SafeRewrite escKey (keysOf entries)) :
    (escape_chars (.map entries)).entriesOf.Perm
      (entries.map (fun p => (escKey p.1, escape_chars p.2))) ∧
    (∀ d : Doc, d.isMapB = false → escape_chars d = d) :=
  ⟨translate_map_perm ESCAPE_TRANSLATION entries h,
   fun d hd => translate_chars_nonmap ESCAPE_TRANSLATION d hd⟩

/-- C9 counterexample: escaping a two-entry mapping whose second key a．b is
exactly the rewrite of its first key a.b keeps only one entry: the
assignment of 2 is lost, so the set of value assignments changes. -/
theorem C9_counterexample_collision :
    escape_chars (Doc.map [("a.b", Doc.num 1), ("a．b", Doc.num 2)]) =
      Doc.map [("a．b", Doc.num 1)] ∧
    (escape_chars (Doc.map [("a.b", Doc.num 1), ("a．b", Doc.num 2)])).entriesOf.length
      = 1 ∧
    ([("a.b", Doc.num 1), ("a．b", Doc.num 2)] : List (String × Doc)).length = 2 :=
  ⟨rfl, rfl, rfl⟩

/-- Witness: the amended C9 theorem applied to a concrete collision-free
mapping. -/
theorem C9_witness :
    SafeRewrite escKey (keysOf [("a.b", Doc.num 1), ("k", Doc.str "v")]) ∧
    (escape_chars (.map [("a.b", Doc.num 1), ("k", Doc.str "v")])).entriesOf.Perm
      ([(("a.b" : String), Doc.num 1), ("k", Doc.str "v")].map
        (fun p => (escKey p.1, escape_chars p.2))) :=
  ⟨by decide,
   (C9_escape_renames_entries_one_to_one [("a.b", Doc.num 1), ("k", Doc.str "v")]
     (by decide)).1⟩

/-- C10: both passes are idempotent: escaping an already-escaped document
changes nothing, and likewise for unescaping, because the substitute
characters each pass writes are never in that pass's own set of characters
to replace. -/
theorem C10_escape_unescape_idempotent (d : Doc) :
    escape_chars (escape_chars d) = escape_chars d ∧
    unescape_chars (unescape_chars d) = unescape_chars d := by
  constructor
  · exact translate_chars_fixed ESCAPE_TRANSLATION (escape_chars d)
      (translate_chars_output_fixed ESCAPE_TRANSLATION (fun s => escKey_escKey s) d)
  · exact translate_chars_fixed UNESCAPE_TRANSLATION (unescape_chars d)
      (translate_chars_output_fixed UNESCAPE_TRANSLATION (fun s => unescKey_unescKey s) d)

/-! ## Part B: st2client/st2client/commands/resource.py

The generic resource command layer.  External collaborators (the backend
manager, the file system, json decoding plus `resource.deserialize`, the
renderer) are parameters; the embedded `run`/`run_and_print` functions
return, next to the Python return value or raised error, the ordered list
of observable events (backend calls and file handling) and the printed
output. -/

/-- A resource instance: the command core depends only on the `id`
attribute (`getattr(inst, 'id', None)` yields `none` when absent) plus
opaque further attributes, collapsed into `data`. -/
structure Instance where
  id : Option String
  data : String
deriving DecidableEq, Repr

/-- `ResourceNotFoundError`, a plain `Exception(...)` raised by the command
layer itself, and an arbitrary error raised by a backend collaborator. -/
inductive Err where
  | resourceNotFound (msg : String)
  | exc (msg : String)
  | backendErr (msg : String)
deriving DecidableEq, Repr

/-- A backend call with its arguments.  The token argument records the
`token` kwarg handed to the manager (`none` when the kwarg is absent); for
`get_all`, the first argument records the `pack` filter kwarg (`none` when
absent, `some p` when `pack=p` was passed, where `p` itself may be the
Python `None` given on the command line). -/
inductive Call where
  | getByName (nameOrId : String) (token : Option String)
  | getById (nameOrId : String) (token : Option String)
  | getByRefOrId (refOrId : String) (token : Option String)
  | getAll (pack : Option (Option String)) (token : Option String)
  | create (inst : Instance) (token : Option String)
  | update (inst : Instance) (token : Option String)
  | delete (inst : Instance) (token : Option String)
deriving DecidableEq, Repr

/-- Events observable during one command run, in program order: the file
handling of the `with open(...)` block and the backend calls. -/
inductive Ev where
  | fileOpened (path : String)
  | fileRead (path : String)
  | fileClosed (path : String)
  | backendCall (c : Call)
deriving DecidableEq, Repr

/-- What a command prints: a property/value table of one instance, a
multi-column table of a list, or a plain printed message. -/
inductive Output where
  | propTable (inst : Instance)
  | multiColumnTable (insts : List Instance)
  | msg (s : String)
deriving DecidableEq, Repr

/-- The backend manager collaborator: the operations `resource.py` invokes.
An `Option Instance` result renders a Python falsy result (`None`) as
`none`; `Except Err` renders raised errors. -/
structure Manager where
  get_by_name : String → Option String → Except Err (Option Instance)
  get_by_id : String → Option String → Except Err (Option Instance)
  get_by_ref_or_id : String → Option String → Except Err (Option Instance)
  get_all : Option (Option String) → Option String → Except Err (List Instance)
  create : Instance → Option String → Except Err Instance
  update : Instance → Option String → Except Err Instance
  delete : Instance → Option String → Except Err Unit

/-- Source: `add_auth_token_to_kwargs_from_cli` (lines 29-35): the `token`
kwarg is set only when `ns.token` is truthy (both Python `None` and the
empty string are falsy). -/
def effToken (token : Option String) : Option String :=
  match token with
  | some s => if s = "" then none else some s
  | none => none

/-- Source line 128: message of the not-found error of name-or-id lookup. -/
def notFoundByNameMsg (nameOrId : String) : String :=
  "Resource with id or name \"" ++ nameOrId ++ "\" doesn\x27t exist."

/-- Source line 137: message of the not-found error of ref-or-id lookup. -/
def notFoundByRefMsg (refOrId : String) : String :=
  "Resource with id or reference \"" ++ refOrId ++ "\" doesn\x27t exist."

/-- Source: `print_not_found` (lines 113-115): the standardized printed
message. -/
def notFoundOutput (displayName name : String) : String :=
  displayName ++ " \"" ++ name ++ "\" is not found.\n"

/-- Source lines 281 and 316. -/
def fileMissingMsg (file : String) : String :=
  "File \"" ++ file ++ "\" does not exist."

/-- Source lines 328-331 (one message split over three adjacent string
literals in the Python source). -/
def mismatchMsg (displayNameLower : String) : String :=
  "The value for the " ++ displayNameLower ++
    " id in the JSON file does not match the ID provided in the command line arguments."

/-- Source: `ResourceCommand.get_resource_by_name_or_id` (lines 120-131):
try the name lookup; when it yields a falsy result, try the id lookup under
a bare `except: pass`; when the result is still falsy raise
`ResourceNotFoundError`.  The second component lists the backend calls in
order. -/
def get_resource_by_name_or_id (m : Manager) (nameOrId : String)
    (token : Option String) : Except Err Instance × List Ev :=
  match m.get_by_name nameOrId token with
  | .error e => (.error e, [.backendCall (.getByName nameOrId token)])
  | .ok (some inst) => (.ok inst, [.backendCall (.getByName nameOrId token)])
  | .ok none =>
      match m.get_by_id nameOrId token with
      | .ok (some inst) =>
          (.ok inst, [.backendCall (.getByName nameOrId token),
            .backendCall (.getById nameOrId token)])
      | _ =>
          (.error (.resourceNotFound (notFoundByNameMsg nameOrId)),
           [.backendCall (.getByName nameOrId token),
            .backendCall (.getById nameOrId token)])

/-- Source: `ResourceCommand.get_resource_by_ref_or_id` (lines 133-140). -/
def get_resource_by_ref_or_id (m : Manager) (refOrId : String)
    (token : Option String) : Except Err Instance × List Ev :=
  match m.get_by_ref_or_id refOrId token with
  | .error e => (.error e, [.backendCall (.getByRefOrId refOrId token)])
  | .ok (some inst) => (.ok inst, [.backendCall (.getByRefOrId refOrId token)])
  | .ok none =>
      (.error (.resourceNotFound (notFoundByRefMsg refOrId)),
       [.backendCall (.getByRefOrId refOrId token)])

/-- Arguments of the list command: only the token matters to `run`. -/
structure ListArgs where
  token : Option String
deriving DecidableEq, Repr

/-- Arguments of the pack-scoped list command: token plus the pack filter
(itself optional on the command line, hence `Option String`). -/
structure PackListArgs where
  token : Option String
  pack : Option String
deriving DecidableEq, Repr

/-- Arguments of get/delete: the primary-key argument (`name_or_id`, or
`ref_or_id` for pack-scoped variants) and the token. -/
structure IdArgs where
  pk : String
  token : Option String
deriving DecidableEq, Repr

/-- Arguments of create: the file path and the token. -/
structure FileArgs where
  file : String
  token : Option String
deriving DecidableEq, Repr

/-- Arguments of update: the primary-key argument, the file path and the
token. -/
structure UpdateArgs where
  pk : String
  file : String
  token : Option String
deriving DecidableEq, Repr

/-- External collaborators of create/update: `os.path.isfile`, the file
contents, and the composition of `json.loads` with `resource.deserialize`
(either may raise, rendered as `.error`). -/
structure FileEnv where
  isfile : String → Bool
  contents : String → String
  deserialize : String → Except Err Instance

/-- Source: `ResourceListCommand.run` (lines 181-183): `get_all(**kwargs)`
where the decorator put the effective token into kwargs. -/
def resourceListRun (m : Manager) (a : ListArgs) :
    Except Err (List Instance) × List Ev :=
  (m.get_all none (effToken a.token),
   [.backendCall (.getAll none (effToken a.token))])

/-- Source: `ContentPackResourceListCommand.run` (lines 204-207): the
decorator computes the token kwarg, but the body calls
`self.manager.get_all(**filters)` with only `filters = {'pack': args.pack}`,
so the token kwarg is dropped and the pack filter is always passed. -/
def contentPackListRun (m : Manager) (a : PackListArgs) :
    Except Err (List Instance) × List Ev :=
  (m.get_all (some a.pack) none,
   [.backendCall (.getAll (some a.pack) none)])

/-- Source: `ResourceGetCommand.run` (lines 235-238), which resolves through
`get_resource`, i.e. name-or-id for the plain command. -/
def resourceGetRun (m : Manager) (a : IdArgs) : Except Err Instance × List Ev :=
  get_resource_by_name_or_id m a.pk (effToken a.token)

/-- Source: `ContentPackResourceGetCommand.get_resource` override (lines
263-264): the pack-scoped get resolves by ref-or-id instead. -/
def contentPackGetRun (m : Manager) (a : IdArgs) : Except Err Instance × List Ev :=
  get_resource_by_ref_or_id m a.pk (effToken a.token)

/-- Source: `ResourceGetCommand.run_and_print` (lines 240-248): render the
instance, or catch `ResourceNotFoundError` and print the standardized
not-found message for the identifier argument; any other error propagates. -/
def resourceGetRunAndPrint (m : Manager) (displayName : String) (a : IdArgs) :
    Except Err Unit × List Ev × List Output :=
  match resourceGetRun m a with
  | (.ok inst, evs) => (.ok (), evs, [.propTable inst])
  | (.error (.resourceNotFound _), evs) =>
      (.ok (), evs, [.msg (notFoundOutput displayName a.pk)])
  | (.error e, evs) => (.error e, evs, [])

/-- Source: `ResourceDeleteCommand.run` (lines 361-365): resolve, then
delete by instance (no return value). -/
def resourceDeleteRun (m : Manager) (a : IdArgs) : Except Err Unit × List Ev :=
  match get_resource_by_name_or_id m a.pk (effToken a.token) with
  | (.error e, evs) => (.error e, evs)
  | (.ok inst, evs) =>
      match m.delete inst (effToken a.token) with
      | .error e => (.error e, evs ++ [.backendCall (.delete inst (effToken a.token))])
      | .ok _ => (.ok (), evs ++ [.backendCall (.delete inst (effToken a.token))])

/-- Source: `ResourceDeleteCommand.run_and_print` (lines 367-372): catch
`ResourceNotFoundError` and print the standardized message; success prints
nothing. -/
def resourceDeleteRunAndPrint (m : Manager) (displayName : String) (a : IdArgs) :
    Except Err Unit × List Ev × List Output :=
  match resourceDeleteRun m a with
  | (.ok _, evs) => (.ok (), evs, [])
  | (.error (.resourceNotFound _), evs) =>
      (.ok (), evs, [.msg (notFoundOutput displayName a.pk)])
  | (.error e, evs) => (.error e, evs, [])

/-- Source: `ResourceCreateCommand.run` (lines 278-285): check that the
file exists, then inside `with open(...)` read, deserialize and call
create.  The `return` sits inside the with block, so the handle is released
only after the backend call returns (the with block also closes the file
when deserialization raises). -/
def resourceCreateRun (m : Manager) (env : FileEnv) (a : FileArgs) :
    Except Err Instance × List Ev :=
  if env.isfile a.file = false then
    (.error (.exc (fileMissingMsg a.file)), [])
  else
    match env.deserialize (env.contents a.file) with
    | .error e =>
        (.error e, [.fileOpened a.file, .fileRead a.file, .fileClosed a.file])
    | .ok inst =>
        (m.create inst (effToken a.token),
         [.fileOpened a.file, .fileRead a.file,
          .backendCall (.create inst (effToken a.token)), .fileClosed a.file])

/-- Python truthiness of `getattr(modified_instance, 'id', None)`: an
absent id and the empty string are both falsy. -/
def idTruthy : Option String → Bool
  | none => false
  | some s => s ≠ ""

/-- Source: `ResourceUpdateCommand.run` (lines 313-332): check the file
exists, resolve the existing instance (name-or-id), then inside
`with open(...)` read and deserialize; when the candidate id is falsy the
resolved id is copied over, when it is truthy and differs a plain
`Exception` is raised, otherwise the candidate goes to `update` as is. -/
def resourceUpdateRun (m : Manager) (env : FileEnv) (displayNameLower : String)
    (a : UpdateArgs) : Except Err Instance × List Ev :=
  if env.isfile a.file = false then
    (.error (.exc (fileMissingMsg a.file)), [])
  else
    match get_resource_by_name_or_id m a.pk (effToken a.token) with
    | (.error e, evs) => (.error e, evs)
    | (.ok inst, evs) =>
        match env.deserialize (env.contents a.file) with
        | .error e =>
            (.error e, evs ++ [.fileOpened a.file, .fileRead a.file, .fileClosed a.file])
        | .ok mi =>
            if idTruthy mi.id = false then
              (m.update ⟨inst.id, mi.data⟩ (effToken a.token),
               evs ++ [.fileOpened a.file, .fileRead a.file,
                 .backendCall (.update ⟨inst.id, mi.data⟩ (effToken a.token)),
                 .fileClosed a.file])
            else if mi.id ≠ inst.id then
              (.error (.exc (mismatchMsg displayNameLower)),
               evs ++ [.fileOpened a.file, .fileRead a.file, .fileClosed a.file])
            else
              (m.update mi (effToken a.token),
               evs ++ [.fileOpened a.file, .fileRead a.file,
                 .backendCall (.update mi (effToken a.token)), .fileClosed a.file])

/-! ### Event classification -/

def isFileEv : Ev → Bool
  | .fileOpened _ => true
  | .fileRead _ => true
  | .fileClosed _ => true
  | .backendCall _ => false

def isBackendEv : Ev → Bool
  | .backendCall _ => true
  | _ => false

/-- A backend call that mutates (create or update). -/
def isMutatingEv : Ev → Bool
  | .backendCall (.create _ _) => true
  | .backendCall (.update _ _) => true
  | _ => false

/-- A read-only lookup backend call. -/
def isLookupEv : Ev → Bool
  | .backendCall (.getByName _ _) => true
  | .backendCall (.getById _ _) => true
  | .backendCall (.getByRefOrId _ _) => true
  | _ => false

/-- The temporal property claim C8 states: every file event (open, read,
release) precedes every backend call of the run. -/
def fileEvsPrecedeBackend : List Ev → Bool
  | [] => true
  | e :: rest =>
      (if isBackendEv e then rest.all (fun x => !isFileEv x) else true) &&
        fileEvsPrecedeBackend rest

/-- A completed file read precedes every mutating backend call; `seen`
records whether a read completed already. -/
def readPrecedesMutations (seen : Bool) : List Ev → Bool
  | [] => true
  | e :: rest =>
      match e with
      | .fileRead _ => readPrecedesMutations true rest
      | _ => (!isMutatingEv e || seen) && readPrecedesMutations seen rest

/-- Name-or-id resolution only issues lookup calls. -/
theorem get_resource_by_name_or_id_evs_lookup (m : Manager) (nameOrId : String)
    (token : Option String) :
    ∀ ev ∈ (get_resource_by_name_or_id m nameOrId token).2, isLookupEv ev = true := by
  intro ev hev
  unfold get_resource_by_name_or_id at hev
  cases hname : m.get_by_name nameOrId token with
  | error e =>
    rw [hname] at hev
    simp only [List.mem_singleton] at hev
    subst hev; rfl
  | ok oinst =>
    cases oinst with
    | some inst =>
      rw [hname] at hev
      simp only [List.mem_singleton] at hev
      subst hev; rfl
    | none =>
      rw [hname] at hev
      cases hid : m.get_by_id nameOrId token with
      | error e =>
        rw [hid] at hev
        rcases List.mem_cons.mp hev with rfl | hev2
        · rfl
        · simp only [List.mem_singleton] at hev2
          subst hev2; rfl
      | ok oinst2 =>
        cases oinst2 with
        | some inst =>
          rw [hid] at hev
          rcases List.mem_cons.mp hev with rfl | hev2
          · rfl
          · simp only [List.mem_singleton] at hev2
            subst hev2; rfl
        | none =>
          rw [hid] at hev
          rcases List.mem_cons.mp hev with rfl | hev2
          · rfl
          · simp only [List.mem_singleton] at hev2
            subst hev2; rfl

theorem lookup_not_mutating {ev : Ev} (h : isLookupEv ev = true) :
    isMutatingEv ev = false := by
  cases ev with
  | backendCall c => cases c <;> first | rfl | exact absurd h (by simp [isLookupEv])
  | fileOpened p => rfl
  | fileRead p => rfl
  | fileClosed p => rfl

/-! ### Claims C2, C3, C4, C5, C7, C8 about the command layer -/

/-- C2: name-or-id resolution first tries the name lookup; an error raised
there propagates unchanged (and the id lookup is not attempted); a truthy
name result is returned directly; on a falsy name result the id lookup is
attempted, its result returned when truthy, while an error raised by it is
suppressed and discarded; when both lookups yield nothing (or the id
lookup failed) a `ResourceNotFoundError` carrying the attempted identifier
is raised. -/
theorem C2_name_or_id_resolution (m : Manager) (nameOrId : String)
    (token : Option String) :
    (∀ e, m.get_by_name nameOrId token = .error e →
      get_resource_by_name_or_id m nameOrId token =
        (.error e, [.backendCall (.getByName nameOrId token)])) ∧
    (∀ inst, m.get_by_name nameOrId token = .ok (some inst) →
      get_resource_by_name_or_id m nameOrId token =
        (.ok inst, [.backendCall (.getByName nameOrId token)])) ∧
    (∀ inst, m.get_by_name nameOrId token = .ok none →
      m.get_by_id nameOrId token = .ok (some inst) →
      get_resource_by_name_or_id m nameOrId token =
        (.ok inst, [.backendCall (.getByName nameOrId token),
          .backendCall (.getById nameOrId token)])) ∧
    (∀ e, m.get_by_name nameOrId token = .ok none →
      m.get_by_id nameOrId token = .error e →
      get_resource_by_name_or_id m nameOrId token =
        (.error (.resourceNotFound (notFoundByNameMsg nameOrId)),
         [.backendCall (.getByName nameOrId token),
          .backendCall (.getById nameOrId token)])) ∧
    (m.get_by_name nameOrId token = .ok none →
      m.get_by_id nameOrId token = .ok none →
      get_resource_by_name_or_id m nameOrId token =
        (.error (.resourceNotFound (notFoundByNameMsg nameOrId)),
         [.backendCall (.getByName nameOrId token),
          .backendCall (.getById nameOrId token)])) := by
  refine ⟨?_, ?_, ?_, ?_, ?_⟩
  · intro e h
    unfold get_resource_by_name_or_id
    rw [h]
  · intro inst h
    unfold get_resource_by_name_or_id
    rw [h]
  · intro inst h1 h2
    unfold get_resource_by_name_or_id
    rw [h1, h2]
  · intro e h1 h2
    unfold get_resource_by_name_or_id
    rw [h1, h2]
  · intro h1 h2
    unfold get_resource_by_name_or_id
    rw [h1, h2]

/-- A backend whose name lookup raises, id lookup finds nothing. -/
def mgrNameErr : Manager :=
  ⟨fun _ _ => .error (.backendErr ("boom")),
   fun _ _ => .ok none, fun _ _ => .ok none, fun _ _ => .ok [],
   fun i _ => .ok i, fun i _ => .ok i, fun _ _ => .ok ()⟩

/-- Witness: C2 applied to a backend whose name lookup raises: the error
propagates unchanged and no id lookup is attempted. -/
theorem C2_witness :
    get_resource_by_name_or_id mgrNameErr "x" none =
      (.error (.backendErr ("boom")), [.backendCall (.getByName "x" none)]) :=
  (C2_name_or_id_resolution mgrNameErr "x" none).1 (.backendErr ("boom")) rfl

/-- C4: for the Get and Delete commands, `run_and_print` catches a
`ResourceNotFoundError` raised by `run` and prints the standardized message
consisting of the display name, the quoted identifier and `is not found.`
followed by a newline, then returns without error; in particular a delete
of a nonexistent identifier prints that message and exits without error. -/
theorem C4_not_found_printed (m : Manager) (displayName : String) (a : IdArgs) :
    (∀ msg evs, resourceGetRun m a = (.error (.resourceNotFound msg), evs) →
      resourceGetRunAndPrint m displayName a =
        (.ok (), evs, [.msg (notFoundOutput displayName a.pk)])) ∧
    (∀ msg evs, resourceDeleteRun m a = (.error (.resourceNotFound msg), evs) →
      resourceDeleteRunAndPrint m displayName a =
        (.ok (), evs, [.msg (notFoundOutput displayName a.pk)])) := by
  constructor
  · intro msg evs h
    unfold resourceGetRunAndPrint
    rw [h]
  · intro msg evs h
    unfold resourceDeleteRunAndPrint
    rw [h]

/-- A backend where nothing exists. -/
def mgrEmpty : Manager :=
  ⟨fun _ _ => .ok none, fun _ _ => .ok none, fun _ _ => .ok none, fun _ _ => .ok [],
   fun i _ => .ok i, fun i _ => .ok i, fun _ _ => .ok ()⟩

/-- Witness: C4 applied to an empty backend: both get and delete of the
identifier nonexistent print the standardized message and return without
error. -/
theorem C4_witness :
    resourceGetRunAndPrint mgrEmpty "Action" ⟨"nonexistent", none⟩ =
      (.ok (), [.backendCall (.getByName "nonexistent" none),
        .backendCall (.getById "nonexistent" none)],
       [.msg ("Action \"nonexistent\" is not found.\n")]) ∧
    resourceDeleteRunAndPrint mgrEmpty "Action" ⟨"nonexistent", none⟩ =
      (.ok (), [.backendCall (.getByName "nonexistent" none),
        .backendCall (.getById "nonexistent" none)],
       [.msg ("Action \"nonexistent\" is not found.\n")]) :=
  ⟨(C4_not_found_printed mgrEmpty "Action" ⟨"nonexistent", none⟩).1
     (notFoundByNameMsg "nonexistent") _ rfl,
   (C4_not_found_printed mgrEmpty "Action" ⟨"nonexistent", none⟩).2
     (notFoundByNameMsg "nonexistent") _ rfl⟩

/-- C3 (amended): when the deserialized file instance carries a truthy
(non-empty) id that differs from the resolved existing instance's id,
`ResourceUpdateCommand.run` raises the mismatch validation error and the
manager's update operation is never invoked — the only backend calls of the
run are the resolution lookups that precede the file read. -/
theorem C3_update_id_mismatch (m : Manager) (env : FileEnv)
    (displayNameLower : String) (a : UpdateArgs) (inst mi : Instance)
    (evs : List Ev) (s : String)
    (hfile : env.isfile a.file = true)
    (hres : get_resource_by_name_or_id m a.pk (effToken a.token) = (.ok inst, evs))
    (hde : env.deserialize (env.contents a.file) = .ok mi)
    (hid : mi.id = some s) (hs : s ≠ "") (hne : some s ≠ inst.id) :
    resourceUpdateRun m env displayNameLower a =
      (.error (.exc (mismatchMsg displayNameLower)),
       evs ++ [.fileOpened a.file, .fileRead a.file, .fileClosed a.file]) ∧
    (∀ ev ∈ (resourceUpdateRun m env displayNameLower a).2, isMutatingEv ev = false) := by
  have htruthy : idTruthy (some s) = true := by
    simpa [idTruthy] using hs
  have hrun : resourceUpdateRun m env displayNameLower a =
      (.error (.exc (mismatchMsg displayNameLower)),
       evs ++ [.fileOpened a.file, .fileRead a.file, .fileClosed a.file]) := by
    simp [resourceUpdateRun, hfile, hres, hde, hid, htruthy, hne]
  refine ⟨hrun, ?_⟩
  rw [hrun]
  intro ev hev
  rcases List.mem_append.mp hev with h1 | h2
  · exact lookup_not_mutating (by
      have := get_resource_by_name_or_id_evs_lookup m a.pk (effToken a.token)
      rw [hres] at this
      exact this ev h1)
  · rcases List.mem_cons.mp h2 with rfl | h3
    · rfl
    · rcases List.mem_cons.mp h3 with rfl | h4
      · rfl
      · rcases List.mem_cons.mp h4 with rfl | h5
        · rfl
        · cases h5

/-- A backend whose name lookup finds the instance with id abc. -/
def mgrFound : Manager :=
  ⟨fun _ _ => .ok (some ⟨some "abc", "old"⟩),
   fun _ _ => .ok none, fun _ _ => .ok none, fun _ _ => .ok [],
   fun i _ => .ok i, fun i _ => .ok i, fun _ _ => .ok ()⟩

/-- A file environment whose file deserializes to an instance with the
empty-string id. -/
def envEmptyId : FileEnv :=
  ⟨fun _ => true, fun _ => "raw", fun _ => .ok ⟨some "", "new"⟩⟩

/-- C3 counterexample: the deserialized instance carries the id empty
string, which differs from the resolved id abc; but because the empty
string is falsy in Python, the code takes the copy branch instead of
raising the mismatch error, and the manager's update operation is invoked
(with the id silently overwritten). -/
theorem C3_counterexample_empty_string_id :
    (⟨some "", "new"⟩ : Instance).id = some "" ∧
    (some "" : Option String) ≠ some "abc" ∧
    resourceUpdateRun mgrFound envEmptyId "rule" ⟨"r1", "f.json", none⟩ =
      (.ok ⟨some "abc", "new"⟩,
       [.backendCall (.getByName "r1" none), .fileOpened "f.json", .fileRead "f.json",
        .backendCall (.update ⟨some "abc", "new"⟩ none), .fileClosed "f.json"]) :=
  ⟨rfl, by decide, rfl⟩

/-- A file environment whose file deserializes to an instance with the id
xyz. -/
def envOtherId : FileEnv :=
  ⟨fun _ => true, fun _ => "raw", fun _ => .ok ⟨some "xyz", "new"⟩⟩

/-- Witness: the amended C3 theorem applied to a concrete run whose file
carries the non-empty id xyz while the resolved instance has id abc. -/
theorem C3_witness :
    envOtherId.isfile "f.json" = true ∧
    resourceUpdateRun mgrFound envOtherId "rule" ⟨"r1", "f.json", none⟩ =
      (.error (.exc (mismatchMsg "rule")),
       [.backendCall (.getByName "r1" none), .fileOpened "f.json", .fileRead "f.json",
        .fileClosed "f.json"]) :=
  ⟨rfl,
   (C3_update_id_mismatch mgrFound envOtherId "rule" ⟨"r1", "f.json", none⟩
     ⟨some "abc", "old"⟩ ⟨some "xyz", "new"⟩ [.backendCall (.getByName "r1" none)]
     "xyz" rfl rfl rfl rfl (by decide) (by decide)).1⟩

/-- C5: when the deserialized file instance carries no id, the resolved
existing instance's id is copied onto it and the manager's update operation
receives an instance whose id equals the resolved existing resource's id. -/
theorem C5_update_copies_id (m : Manager) (env : FileEnv)
    (displayNameLower : String) (a : UpdateArgs) (inst mi : Instance)
    (evs : List Ev)
    (hfile : env.isfile a.file = true)
    (hres : get_resource_by_name_or_id m a.pk (effToken a.token) = (.ok inst, evs))
    (hde : env.deserialize (env.contents a.file) = .ok mi)
    (hid : mi.id = none) :
    resourceUpdateRun m env displayNameLower a =
      (m.update ⟨inst.id, mi.data⟩ (effToken a.token),
       evs ++ [.fileOpened a.file, .fileRead a.file,
         .backendCall (.update ⟨inst.id, mi.data⟩ (effToken a.token)),
         .fileClosed a.file]) ∧
    (⟨inst.id, mi.data⟩ : Instance).id = inst.id := by
  have hfalsy : idTruthy mi.id = false := by rw [hid]; rfl
  constructor
  · simp [resourceUpdateRun, hfile, hres, hde, hfalsy]
  · rfl

/-- A file environment whose file deserializes to an instance carrying no
id at all. -/
def envNoId : FileEnv :=
  ⟨fun _ => true, fun _ => "raw", fun _ => .ok ⟨none, "new"⟩⟩

/-- Witness: C5 applied to a concrete run; the submitted instance carries
the resolved id abc. -/
theorem C5_witness :
    envNoId.isfile "f.json" = true ∧
    resourceUpdateRun mgrFound envNoId "rule" ⟨"r1", "f.json", none⟩ =
      (.ok ⟨some "abc", "new"⟩,
       [.backendCall (.getByName "r1" none), .fileOpened "f.json", .fileRead "f.json",
        .backendCall (.update ⟨some "abc", "new"⟩ none), .fileClosed "f.json"]) :=
  ⟨rfl, by
    have h := (C5_update_copies_id mgrFound envNoId "rule" ⟨"r1", "f.json", none⟩
      ⟨some "abc", "old"⟩ ⟨none, "new"⟩ [.backendCall (.getByName "r1" none)]
      rfl rfl rfl rfl).1
    exact h⟩

/-- C7 (code bug): a content-pack-scoped List run does not equal the plain
List run up to the documented differences: the plain List's run passes the
caller's effective auth token to get_all, while the pack-scoped List's run
— although its decorator computes the token kwarg exactly as the plain one
does — calls get_all with only the pack filter, dropping the token. -/
theorem C7_pack_list_drops_token :
    (resourceListRun mgrEmpty ⟨some "tok1"⟩).2 =
      [.backendCall (.getAll none (some "tok1"))] ∧
    (contentPackListRun mgrEmpty ⟨some "tok1", some "mypack"⟩).2 =
      [.backendCall (.getAll (some (some "mypack")) none)] ∧
    (∀ (m : Manager) (a : PackListArgs),
      contentPackListRun m a = (m.get_all (some a.pack) none,
        [.backendCall (.getAll (some a.pack) none)])) :=
  ⟨rfl, rfl, fun _ _ => rfl⟩

/-- Lookup events are neither reads nor mutations, so a prefix of lookup
calls does not affect the read-before-mutation check. -/
theorem readPrecedesMutations_append_lookups (evs l : List Ev)
    (h : ∀ ev ∈ evs, isLookupEv ev = true) :
    readPrecedesMutations false (evs ++ l) = readPrecedesMutations false l := by
  induction evs with
  | nil => rfl
  | cons e rest ih =>
    have he := h e (List.mem_cons_self _ _)
    have hrest := fun ev hev => h ev (List.mem_cons_of_mem e hev)
    cases e with
    | fileOpened p => simp [isLookupEv] at he
    | fileRead p => simp [isLookupEv] at he
    | fileClosed p => simp [isLookupEv] at he
    | backendCall c =>
      have hmut : isMutatingEv (.backendCall c) = false := lookup_not_mutating he
      show ((!isMutatingEv (.backendCall c) || false) &&
        readPrecedesMutations false (rest ++ l)) = _
      rw [hmut, ih hrest]
      rfl

/-- C8 counterexample: in a successful create the file handle is released
only after the create call returns, and in a successful update the
resolution lookup call precedes the file handling entirely: in both traces
it is false that every file event precedes every backend call. -/
theorem C8_counterexample_file_scope :
    fileEvsPrecedeBackend (resourceCreateRun mgrFound envNoId ⟨"f.json", none⟩).2
      = false ∧
    (resourceCreateRun mgrFound envNoId ⟨"f.json", none⟩).2 =
      [.fileOpened "f.json", .fileRead "f.json",
       .backendCall (.create ⟨none, "new"⟩ none), .fileClosed "f.json"] ∧
    fileEvsPrecedeBackend
      (resourceUpdateRun mgrFound envNoId "rule" ⟨"r1", "f.json", none⟩).2 = false ∧
    (resourceUpdateRun mgrFound envNoId "rule" ⟨"r1", "f.json", none⟩).2 =
      [.backendCall (.getByName "r1" none), .fileOpened "f.json", .fileRead "f.json",
       .backendCall (.update ⟨some "abc", "new"⟩ none), .fileClosed "f.json"] :=
  ⟨rfl, rfl, rfl, rfl⟩

/-- C8 (amended): in every create and update invocation the file is opened
and fully read before the mutating backend call (create or update) is
issued.  (As stated the claim fails: the handle is released only after that
call returns, and update's resolution lookups precede the file read — see
the counterexample.) -/
theorem C8_read_before_mutating_calls (m : Manager) (env : FileEnv)
    (displayNameLower : String) (ca : FileArgs) (ua : UpdateArgs) :
    readPrecedesMutations false (resourceCreateRun m env ca).2 = true ∧
    readPrecedesMutations false (resourceUpdateRun m env displayNameLower ua).2
      = true := by
  constructor
  · by_cases hf : env.isfile ca.file = false
    · simp [resourceCreateRun, hf, readPrecedesMutations]
    · cases hde : env.deserialize (env.contents ca.file) with
      | error e =>
        simp [resourceCreateRun, hf, hde, readPrecedesMutations, isMutatingEv]
      | ok inst =>
        simp [resourceCreateRun, hf, hde, readPrecedesMutations, isMutatingEv]
  · by_cases hf : env.isfile ua.file = false
    · simp [resourceUpdateRun, hf, readPrecedesMutations]
    · rcases hgr : get_resource_by_name_or_id m ua.pk (effToken ua.token) with ⟨r, evs⟩
      have hevs : ∀ ev ∈ evs, isLookupEv ev = true := by
        have h := get_resource_by_name_or_id_evs_lookup m ua.pk (effToken ua.token)
        rw [hgr] at h
        exact h
      cases r with
      | error e =>
        have htr : (resourceUpdateRun m env displayNameLower ua).2 = evs := by
          simp [resourceUpdateRun, hf, hgr]
        rw [htr]
        have h2 := readPrecedesMutations_append_lookups evs [] hevs
        simpa using h2
      | ok inst =>
        cases hde : env.deserialize (env.contents ua.file) with
        | error e =>
          have htr : (resourceUpdateRun m env displayNameLower ua).2 =
              evs ++ [.fileOpened ua.file, .fileRead ua.file, .fileClosed ua.file] := by
            simp [resourceUpdateRun, hf, hgr, hde]
          rw [htr, readPrecedesMutations_append_lookups _ _ hevs]
          simp [readPrecedesMutations, isMutatingEv]
        | ok mi =>
          by_cases hid : idTruthy mi.id = false
          · have htr : (resourceUpdateRun m env displayNameLower ua).2 =
                evs ++ [.fileOpened ua.file, .fileRead ua.file,
                  .backendCall (.update ⟨inst.id, mi.data⟩ (effToken ua.token)),
                  .fileClosed ua.file] := by
              simp [resourceUpdateRun, hf, hgr, hde, hid]
            rw [htr, readPrecedesMutations_append_lookups _ _ hevs]
            simp [readPrecedesMutations, isMutatingEv]
          · have hid2 : idTruthy mi.id = true := by
              revert hid
              cases idTruthy mi.id <;> simp
            by_cases hne : mi.id ≠ inst.id
            · have htr : (resourceUpdateRun m env displayNameLower ua).2 =
                  evs ++ [.fileOpened ua.file, .fileRead ua.file, .fileClosed ua.file] := by
                simp [resourceUpdateRun, hf, hgr, hde, hid2, hne]
              rw [htr, readPrecedesMutations_append_lookups _ _ hevs]
              simp [readPrecedesMutations, isMutatingEv]
            · have htr : (resourceUpdateRun m env displayNameLower ua).2 =
                  evs ++ [.fileOpened ua.file, .fileRead ua.file,
                    .backendCall (.update mi (effToken ua.token)),
                    .fileClosed ua.file] := by
                simp only [resourceUpdateRun]
                rw [if_neg (by simpa using hf)]
                rw [hgr]
                show (match env.deserialize (env.contents ua.file) with
                  | .error e => (Except.error e, evs ++ [Ev.fileOpened ua.file,
                      Ev.fileRead ua.file, Ev.fileClosed ua.file])
                  | .ok mi =>
                      if idTruthy mi.id = false then
                        (m.update ⟨inst.id, mi.data⟩ (effToken ua.token),
                         evs ++ [Ev.fileOpened ua.file, Ev.fileRead ua.file,
                           Ev.backendCall (Call.update ⟨inst.id, mi.data⟩
                             (effToken ua.token)), Ev.fileClosed ua.file])
                      else if mi.id ≠ inst.id then
                        (Except.error (Err.exc (mismatchMsg displayNameLower)),
                         evs ++ [Ev.fileOpened ua.file, Ev.fileRead ua.file,
                           Ev.fileClosed ua.file])
                      else
                        (m.update mi (effToken ua.token),
                         evs ++ [Ev.fileOpened ua.file, Ev.fileRead ua.file,
                           Ev.backendCall (Call.update mi (effToken ua.token)),
                           Ev.fileClosed ua.file])).2 = _
                rw [hde]
                show (if idTruthy mi.id = false then _ else _ : _ × List Ev).2 = _
                rw [if_neg (by simp [hid2])]
                rw [if_neg hne]
              rw [htr, readPrecedesMutations_append_lookups _ _ hevs]
              simp [readPrecedesMutations, isMutatingEv]

end St2
